import Mathlib

/-!
Verification development for the grammY `chat-members` plugin.

The development shallowly embeds the plugin's source:
* `src/filters.ts` — the status classification engine (`chatMemberIs`,
  `normalizeChatMemberQuery`, `chatMemberQueries`) and the transition
  filters (`chatMemberFilter`, `myChatMemberFilter`);
* `src/storage.ts` — the segmented-key `Trie` (get/set/delete/entries)
  and `MemorySessionStorage` with lazy TTL expiry;
* the hierarchical-key reconciliation middleware (`chatMembers`) and the
  read-through accessor `ctx.chatMembers.getChatMember`.

JavaScript `Map` objects are modelled as insertion-ordered association
lists, mutation is modelled by explicit state passing, and `Date.now()`
becomes an explicit `now : Nat` argument (milliseconds).
-/

set_option autoImplicit false

namespace ChatMembers

/-! ### Small association-list / list helpers (JS `Array.includes`, `Set`, `Map`) -/

/-- JS `Array.prototype.includes`, specialised to decidable equality. -/
def listIncludes {α : Type} [DecidableEq α] : List α → α → Bool
  | [], _ => false
  | a :: rest, x => if a = x then true else listIncludes rest x

theorem listIncludes_iff_mem {α : Type} [DecidableEq α] (l : List α) (x : α) :
    listIncludes l x = true ↔ x ∈ l := by
  induction l with
  | nil => simp [listIncludes]
  | cons a rest ih =>
    simp only [listIncludes, List.mem_cons]
    by_cases h : a = x
    · simp [h]
    · rw [if_neg h, ih]
      constructor
      · exact Or.inr
      · rintro (rfl | hx)
        · exact absurd rfl h
        · exact hx

/-! ### Raw statuses, normalized statuses and queries (`src/filters.ts`) -/

/-- The closed set of raw Telegram chat-member statuses. -/
inductive RawStatus : Type
  | creator
  | administrator
  | member
  | restricted
  | left
  | kicked
  deriving DecidableEq, Repr, Fintype

/-- Base statuses that queries normalize to: the six raw statuses plus the
two disambiguated `restricted` variants. -/
inductive NormStatus : Type
  | administrator
  | creator
  | member
  | restricted
  | left
  | kicked
  | restricted_in
  | restricted_out
  deriving DecidableEq, Repr, Fintype

/-- The `ChatMemberQuery` union type of `src/filters.ts`. -/
inductive ChatMemberQuery : Type
  | admin
  | administrator
  | creator
  | free
  | in_
  | out
  | regular
  | kicked
  | left
  | member
  | restricted
  | restricted_in
  | restricted_out
  deriving DecidableEq, Repr, Fintype

/-- A Telegram user; the plugin only ever reads the `id` field. -/
structure UserInfo : Type where
  id : Int
  deriving DecidableEq, Repr

/-- A `ChatMember` record: a raw status, the `is_member` flag carried by
`restricted` records, and the subject user. -/
structure ChatMemberR : Type where
  status : RawStatus
  is_member : Bool
  user : UserInfo
  deriving DecidableEq, Repr

/-- The `chatMemberQueries` normalization table of `src/filters.ts`
(lines 76–93), downgrading each query to its list of base statuses. -/
def chatMemberQueries : ChatMemberQuery → List NormStatus
  | .admin => [.administrator, .creator]
  | .administrator => [.administrator]
  | .creator => [.creator]
  | .free => [.administrator, .creator, .member]
  | .in_ => [.administrator, .creator, .member, .restricted_in]
  | .out => [.kicked, .left, .restricted_out]
  | .regular => [.member, .restricted_in]
  | .kicked => [.kicked]
  | .left => [.left]
  | .member => [.member]
  | .restricted => [.restricted]
  | .restricted_in => [.restricted_in]
  | .restricted_out => [.restricted_out]

/-- `MaybeArray<T> = T | T[]` from `src/filters.ts`. -/
inductive MaybeArray (α : Type) : Type
  | one (a : α)
  | arr (l : List α)
  deriving DecidableEq, Repr

/-- `query.flatMap(normalizeChatMemberQuery)` for a list of single
queries: each element is looked up in the `chatMemberQueries` table. -/
def flatMapQueries : List ChatMemberQuery → List NormStatus
  | [] => []
  | q :: rest => chatMemberQueries q ++ flatMapQueries rest

theorem mem_flatMapQueries (l : List ChatMemberQuery) (s : NormStatus) :
    s ∈ flatMapQueries l ↔ ∃ q ∈ l, s ∈ chatMemberQueries q := by
  induction l with
  | nil => simp [flatMapQueries]
  | cons q rest ih => simp [flatMapQueries, ih]

/-- JS `new Set(l)` spread back into an array: first-occurrence-ordered
deduplication. -/
def setDedup : List NormStatus → List NormStatus :=
  fun l => l.foldl (fun acc s => if listIncludes acc s then acc else acc ++ [s]) []

theorem mem_setDedup_foldl (l : List NormStatus) (acc : List NormStatus) (x : NormStatus) :
    x ∈ l.foldl (fun acc s => if listIncludes acc s then acc else acc ++ [s]) acc ↔
      x ∈ acc ∨ x ∈ l := by
  induction l generalizing acc with
  | nil => simp
  | cons s rest ih =>
    simp only [List.foldl_cons, ih, List.mem_cons]
    by_cases h : listIncludes acc s = true
    · rw [if_pos h]
      have hs : s ∈ acc := (listIncludes_iff_mem acc s).mp h
      constructor
      · rintro (hx | hx)
        · exact Or.inl hx
        · exact Or.inr (Or.inr hx)
      · rintro (hx | hx | hx)
        · exact Or.inl hx
        · exact Or.inl (hx ▸ hs)
        · exact Or.inr hx
    · rw [if_neg h]
      simp only [List.mem_append, List.mem_singleton]
      tauto

theorem mem_setDedup (l : List NormStatus) (x : NormStatus) :
    x ∈ setDedup l ↔ x ∈ l := by
  simp [setDedup, mem_setDedup_foldl]

/-- `normalizeChatMemberQuery` of `src/filters.ts` (lines 131–144): a
single query is expanded through the table; an array is flat-mapped and
deduplicated through a `Set`. -/
def normalizeChatMemberQuery : MaybeArray ChatMemberQuery → List NormStatus
  | .one q => chatMemberQueries q
  | .arr qs => setDedup (flatMapQueries qs)

/-- The implicit cast of a raw status into the normalized-status universe,
used by `roles.includes(chatMember.status)`. -/
def RawStatus.toNorm : RawStatus → NormStatus
  | .creator => .creator
  | .administrator => .administrator
  | .member => .member
  | .restricted => .restricted
  | .left => .left
  | .kicked => .kicked

/-- `chatMemberIs` of `src/filters.ts` (lines 155–175). -/
def chatMemberIs (chatMember : ChatMemberR) (query : MaybeArray ChatMemberQuery) : Bool :=
  let roles := normalizeChatMemberQuery query
  if chatMember.status = .restricted then
    if listIncludes roles .restricted then
      true
    else if chatMember.is_member then
      listIncludes roles .restricted_in
    else
      listIncludes roles .restricted_out
  else
    listIncludes roles chatMember.status.toNorm

/-- Modelled from the spec: the §4.3 composite-query expansion table
(`admin`, `free`, `in`, `out`, `regular`, `restricted` and each raw
status mapped to itself), stated independently of the source's
normalization table so the two can be compared. -/
def specExpansion : ChatMemberQuery → List NormStatus
  | .admin => [.administrator, .creator]
  | .free => [.administrator, .creator, .member]
  | .in_ => [.administrator, .creator, .member, .restricted_in]
  | .out => [.left, .kicked, .restricted_out]
  | .regular => [.member, .restricted_in]
  | .restricted => [.restricted_in, .restricted_out]
  | .administrator => [.administrator]
  | .creator => [.creator]
  | .member => [.member]
  | .left => [.left]
  | .kicked => [.kicked]
  | .restricted_in => [.restricted_in]
  | .restricted_out => [.restricted_out]

/-- Modelled from the spec: a record's status with `restricted`
disambiguated by its `is_member` flag into `restricted_in`/`restricted_out`. -/
def baseOf (cm : ChatMemberR) : NormStatus :=
  match cm.status with
  | .restricted => if cm.is_member then .restricted_in else .restricted_out
  | s => s.toNorm

example : chatMemberIs ⟨.administrator, false, ⟨1⟩⟩ (.one .admin) = true := by decide
example : chatMemberIs ⟨.member, false, ⟨1⟩⟩ (.one .admin) = false := by decide
example : chatMemberIs ⟨.restricted, true, ⟨1⟩⟩ (.one .in_) = true := by decide
example : chatMemberIs ⟨.restricted, false, ⟨1⟩⟩ (.one .in_) = false := by decide
example : chatMemberIs ⟨.restricted, false, ⟨1⟩⟩ (.arr [.member, .restricted]) = true := by decide

/-! ### Transition filters (`src/filters.ts`, lines 193–253) -/

/-- A Telegram chat; the plugin only ever reads the `id` field. -/
structure ChatInfo : Type where
  id : Int
  deriving DecidableEq, Repr

/-- A `ChatMemberUpdated` event payload: the chat, the acting user, and
the old/new status records of the affected user. -/
structure ChatMemberUpdatedE : Type where
  chat : ChatInfo
  fromUser : UserInfo
  old_chat_member : ChatMemberR
  new_chat_member : ChatMemberR
  deriving DecidableEq, Repr

/-- The per-update context, as far as the filters inspect it:
`ctx.has("chat_member")` holds exactly when the update carries a
`chat_member` payload, and likewise for `my_chat_member`. -/
structure Ctx : Type where
  chatMember : Option ChatMemberUpdatedE
  myChatMember : Option ChatMemberUpdatedE
  deriving DecidableEq, Repr

/-- The predicate built by `chatMemberFilter(oldStatus, newStatus)`
(`src/filters.ts`, lines 234–253): requires a `chat_member` update whose
old and new records match the two queries. -/
def chatMemberFilter (oldStatus newStatus : MaybeArray ChatMemberQuery) (ctx : Ctx) : Bool :=
  match ctx.chatMember with
  | none => false
  | some u => chatMemberIs u.old_chat_member oldStatus && chatMemberIs u.new_chat_member newStatus

/-- The predicate built by `myChatMemberFilter(oldStatus, newStatus)`
(`src/filters.ts`, lines 193–212): same logic bound to `my_chat_member`. -/
def myChatMemberFilter (oldStatus newStatus : MaybeArray ChatMemberQuery) (ctx : Ctx) : Bool :=
  match ctx.myChatMember with
  | none => false
  | some u => chatMemberIs u.old_chat_member oldStatus && chatMemberIs u.new_chat_member newStatus

/-! ### Claims C1, C2, C6 -/

/-- C1: for every chat-member record with one of the six raw statuses and
every single query (composite or raw), `chatMemberIs` returns true exactly
when the record's status — `restricted` disambiguated into
`restricted_in`/`restricted_out` via `is_member` — belongs to the query's
expansion from the §4.3 table. -/
theorem chatMemberIs_matches_spec_table (s : RawStatus) (m : Bool) (u : UserInfo)
    (q : ChatMemberQuery) :
    chatMemberIs ⟨s, m, u⟩ (.one q) = listIncludes (specExpansion q) (baseOf ⟨s, m, u⟩) := by
  cases s <;> cases m <;> cases q <;> rfl

/-- C2: for every `restricted` record `r`, `chatMemberIs r "restricted_in"`
equals `r.is_member`, `chatMemberIs r "restricted_out"` equals its
negation, and `chatMemberIs r "restricted"` is true unconditionally —
also when `restricted` appears anywhere inside a query list. -/
theorem chatMemberIs_restricted_rules (m : Bool) (u : UserInfo) :
    chatMemberIs ⟨.restricted, m, u⟩ (.one .restricted_in) = m ∧
    chatMemberIs ⟨.restricted, m, u⟩ (.one .restricted_out) = !m ∧
    chatMemberIs ⟨.restricted, m, u⟩ (.one .restricted) = true ∧
    ∀ l : List ChatMemberQuery, ChatMemberQuery.restricted ∈ l →
      chatMemberIs ⟨.restricted, m, u⟩ (.arr l) = true := by
  refine ⟨by cases m <;> rfl, by cases m <;> rfl, by cases m <;> rfl, ?_⟩
  intro l hl
  have hmem : NormStatus.restricted ∈ normalizeChatMemberQuery (.arr l) := by
    simp only [normalizeChatMemberQuery, mem_setDedup, mem_flatMapQueries]
    exact ⟨.restricted, hl, by simp [chatMemberQueries]⟩
  have hinc : listIncludes (normalizeChatMemberQuery (.arr l)) .restricted = true :=
    (listIncludes_iff_mem _ _).mpr hmem
  simp [chatMemberIs, hinc]

/-- Witness for C2 at a concrete restricted record and query list. -/
theorem chatMemberIs_restricted_rules_witness :
    chatMemberIs ⟨.restricted, true, ⟨7⟩⟩ (.arr [.member, .restricted]) = true :=
  (chatMemberIs_restricted_rules true ⟨7⟩).2.2.2 [.member, .restricted] (by decide)

/-- C6: for every pair of queries and every context carrying an update of
the matching shape, the constructed predicate holds iff the old record
matches the from-query and the new record matches the to-query; the
predicate depends only on the single event. In particular the
`("out", "in")` filter matches old=left/new=member and rejects
old=member/new=kicked. -/
theorem transition_filter_characterization :
    (∀ (fq tq : MaybeArray ChatMemberQuery) (u : ChatMemberUpdatedE) (ctx : Ctx),
      ctx.chatMember = some u →
      chatMemberFilter fq tq ctx =
        (chatMemberIs u.old_chat_member fq && chatMemberIs u.new_chat_member tq)) ∧
    (∀ (fq tq : MaybeArray ChatMemberQuery) (u : ChatMemberUpdatedE) (ctx : Ctx),
      ctx.myChatMember = some u →
      myChatMemberFilter fq tq ctx =
        (chatMemberIs u.old_chat_member fq && chatMemberIs u.new_chat_member tq)) ∧
    chatMemberFilter (.one .out) (.one .in_)
      ⟨some ⟨⟨1⟩, ⟨2⟩, ⟨.left, false, ⟨3⟩⟩, ⟨.member, false, ⟨3⟩⟩⟩, none⟩ = true ∧
    chatMemberFilter (.one .out) (.one .in_)
      ⟨some ⟨⟨1⟩, ⟨2⟩, ⟨.member, false, ⟨3⟩⟩, ⟨.kicked, false, ⟨3⟩⟩⟩, none⟩ = false := by
  refine ⟨?_, ?_, by decide, by decide⟩
  · intro fq tq u ctx h
    simp [chatMemberFilter, h]
  · intro fq tq u ctx h
    simp [myChatMemberFilter, h]

/-- Witness for C6 at a concrete context and query pair. -/
theorem transition_filter_characterization_witness :
    chatMemberFilter (.one .admin) (.one .member)
        ⟨some ⟨⟨1⟩, ⟨2⟩, ⟨.creator, false, ⟨3⟩⟩, ⟨.member, false, ⟨3⟩⟩⟩, none⟩ =
      (chatMemberIs ⟨.creator, false, ⟨3⟩⟩ (.one .admin) &&
        chatMemberIs ⟨.member, false, ⟨3⟩⟩ (.one .member)) :=
  transition_filter_characterization.1 (.one .admin) (.one .member)
    ⟨⟨1⟩, ⟨2⟩, ⟨.creator, false, ⟨3⟩⟩, ⟨.member, false, ⟨3⟩⟩⟩
    ⟨some ⟨⟨1⟩, ⟨2⟩, ⟨.creator, false, ⟨3⟩⟩, ⟨.member, false, ⟨3⟩⟩⟩, none⟩ rfl

/-! ### Reconciliation middleware and read-through accessor (`src/mod.ts`,
hierarchical variant)

The storage adapter is abstract in the source (`StorageAdapter<T>`); the
middleware only uses its `read`/`write`/`delete` contract, so the adapter
state is modelled as a map from cascading keys to values. -/

/-- `ChatMembersSessionFlavor = Chat | User | ChatMember`: the union of
entity kinds stored by the middleware. -/
inductive Entity : Type
  | chat (c : ChatInfo)
  | user (u : UserInfo)
  | member (m : ChatMemberR)
  deriving DecidableEq, Repr

/-- The storage-adapter contract (§4.1): a map from cascading keys to
stored values; `read key` is application. -/
def Store (E : Type) : Type := List String → Option E

/-- The adapter's empty state. -/
def Store.empty {E : Type} : Store E := fun _ => none

/-- `adapter.write(key, value)`: unconditional upsert. -/
def Store.write {E : Type} (st : Store E) (key : List String) (value : E) : Store E :=
  fun k => if k = key then some value else st k

/-- `adapter.delete(key)`: idempotent removal. -/
def Store.delete {E : Type} (st : Store E) (key : List String) : Store E :=
  fun k => if k = key then none else st k

/-- `isLeaving` of the middleware:
`["left", "kicked"].includes(chatMember.new_chat_member.status)`. -/
def isLeaving (cmu : ChatMemberUpdatedE) : Bool :=
  listIncludes [RawStatus.left, RawStatus.kicked] cmu.new_chat_member.status

/-- The `chat_member` branch of the `chatMembers` middleware (hierarchical
variant): on a leaving status delete the membership record when
`removeLeft.chatMembers` is set (its default is `true`); otherwise upsert
the user, chat and membership records. `chatId`/`userId` are
`ctx.chat.id.toString()` and `chatMember.new_chat_member.user.id.toString()`. -/
def processChatMember (removeLeftChatMembers : Bool) (st : Store Entity)
    (e : ChatMemberUpdatedE) : Store Entity :=
  let cId := toString e.chat.id
  let uId := toString e.new_chat_member.user.id
  if isLeaving e then
    if removeLeftChatMembers then st.delete ["chat_members", cId, uId] else st
  else
    ((st.write ["users", uId] (.user e.new_chat_member.user)).write
        ["chats", cId] (.chat e.chat)).write
      ["chat_members", cId, uId] (.member e.new_chat_member)

/-- `ctx.chatMembers.getChatMember(chatId, userId)`: read-through lookup.
Returns the post-call store, the returned record, and how many times the
remote API (`ctx.api.getChatMember`, modelled as the function `api`) was
invoked during the call. -/
def getChatMember (api : Int → Int → ChatMemberR) (st : Store Entity)
    (chatId userId : Int) : Store Entity × Entity × Nat :=
  let key := ["chat_members", toString chatId, toString userId]
  match st key with
  | some cached => (st, cached, 0)
  | none =>
    let chatMember := api chatId userId
    (st.write key (.member chatMember), .member chatMember, 1)

/-! ### Claims C3, C5, C8 -/

/-- A sample `member → kicked` event in chat 1 for user 2. -/
def evKicked : ChatMemberUpdatedE :=
  ⟨⟨1⟩, ⟨9⟩, ⟨.member, false, ⟨2⟩⟩, ⟨.kicked, false, ⟨2⟩⟩⟩

/-- The membership record held before `evKicked` is processed. -/
def oldMemberRec : ChatMemberR := ⟨.member, false, ⟨2⟩⟩

/-- Counterexample to C3 as stated: with retention enabled
(`removeLeft.chatMembers = false`) the middleware writes nothing on a
leaving status, so the store keeps the old `member` record instead of
mapping the key to the new `kicked` record. -/
theorem retention_keeps_old_record_not_new :
    processChatMember false
        (Store.empty.write ["chat_members", "1", "2"] (.member oldMemberRec)) evKicked
        ["chat_members", "1", "2"] ≠
      some (.member evKicked.new_chat_member) := by
  decide

/-- C3 (amended): on a leaving status with retention disabled the
membership key is deleted; with retention enabled the store is left
completely unchanged (the new record is not written); on any non-leaving
status the user, chat and membership records are upserted and nothing is
deleted. -/
theorem chat_member_reconciliation (rm : Bool) (st : Store Entity) (e : ChatMemberUpdatedE) :
    (isLeaving e = true →
      processChatMember true st e
        ["chat_members", toString e.chat.id, toString e.new_chat_member.user.id] = none) ∧
    (isLeaving e = true → processChatMember false st e = st) ∧
    (isLeaving e = false →
      processChatMember rm st e
          ["chat_members", toString e.chat.id, toString e.new_chat_member.user.id] =
        some (.member e.new_chat_member) ∧
      processChatMember rm st e ["users", toString e.new_chat_member.user.id] =
        some (.user e.new_chat_member.user) ∧
      processChatMember rm st e ["chats", toString e.chat.id] = some (.chat e.chat) ∧
      ∀ k, processChatMember rm st e k = none → st k = none) := by
  refine ⟨fun h => ?_, fun h => ?_, fun h => ?_⟩
  · simp [processChatMember, h, Store.delete]
  · simp [processChatMember, h]
  · refine ⟨?_, ?_, ?_, ?_⟩
    · simp [processChatMember, h, Store.write]
    · simp [processChatMember, h, Store.write]
    · simp [processChatMember, h, Store.write]
    · intro k hk
      simp only [processChatMember, h, if_neg Bool.false_ne_true, Store.write] at hk
      split at hk
      · exact absurd hk (by simp)
      · split at hk
        · exact absurd hk (by simp)
        · split at hk
          · exact absurd hk (by simp)
          · exact hk

/-- Witness for C3 (amended) at concrete events: a kicked member is
deleted under the default configuration and a joining member is stored. -/
theorem chat_member_reconciliation_witness :
    processChatMember true
        (Store.empty.write ["chat_members", "1", "2"] (.member oldMemberRec)) evKicked
        ["chat_members", "1", "2"] = none ∧
    processChatMember true Store.empty ⟨⟨1⟩, ⟨9⟩, ⟨.left, false, ⟨2⟩⟩, ⟨.member, false, ⟨2⟩⟩⟩
        ["chat_members", "1", "2"] =
      some (.member ⟨.member, false, ⟨2⟩⟩) := by
  constructor
  · exact (chat_member_reconciliation true
      (Store.empty.write ["chat_members", "1", "2"] (.member oldMemberRec)) evKicked).1
      (by decide)
  · exact ((chat_member_reconciliation true Store.empty
      ⟨⟨1⟩, ⟨9⟩, ⟨.left, false, ⟨2⟩⟩, ⟨.member, false, ⟨2⟩⟩⟩).2.2 (by decide)).1

/-- Counterexample to C8 as stated: processing a leaving event with
retention disabled leaves the cached `["users", userId]` entry in place;
only the membership record is deleted. -/
theorem leaving_does_not_delete_user_cache :
    processChatMember true
        ((Store.empty.write ["users", "2"] (.user ⟨2⟩)).write
          ["chat_members", "1", "2"] (.member oldMemberRec)) evKicked
        ["users", "2"] ≠ none := by
  decide

/-- C8 (amended): on a leaving status with retention disabled the
middleware deletes exactly the `["chat_members", chatId, userId]` record;
every `["users", ...]` and `["chats", ...]` entry is left unchanged. -/
theorem leaving_deletes_only_membership (st : Store Entity) (e : ChatMemberUpdatedE)
    (h : isLeaving e = true) :
    processChatMember true st e
        ["chat_members", toString e.chat.id, toString e.new_chat_member.user.id] = none ∧
    (∀ uk, processChatMember true st e ["users", uk] = st ["users", uk]) ∧
    (∀ ck, processChatMember true st e ["chats", ck] = st ["chats", ck]) := by
  refine ⟨by simp [processChatMember, h, Store.delete], fun uk => ?_, fun ck => ?_⟩
  · simp [processChatMember, h, Store.delete]
  · simp [processChatMember, h, Store.delete]

/-- Witness for C8 (amended) at a concrete store and event. -/
theorem leaving_deletes_only_membership_witness :
    processChatMember true
        ((Store.empty.write ["users", "2"] (.user ⟨2⟩)).write
          ["chat_members", "1", "2"] (.member oldMemberRec)) evKicked
        ["chat_members", "1", "2"] = none :=
  (leaving_deletes_only_membership
    ((Store.empty.write ["users", "2"] (.user ⟨2⟩)).write
      ["chat_members", "1", "2"] (.member oldMemberRec)) evKicked (by decide)).1

/-- C5: starting from a store with no entry for `(chatId, userId)`, the
first `getChatMember` call invokes the remote API exactly once, writes
the fetched record under the membership key and returns it; the second
call returns the stored record with zero API invocations and leaves the
store untouched. -/
theorem getChatMember_read_through (api : Int → Int → ChatMemberR) (st : Store Entity)
    (chatId userId : Int)
    (h : st ["chat_members", toString chatId, toString userId] = none) :
    (getChatMember api st chatId userId).2.2 = 1 ∧
    (getChatMember api st chatId userId).2.1 = .member (api chatId userId) ∧
    (getChatMember api st chatId userId).1
        ["chat_members", toString chatId, toString userId] =
      some (.member (api chatId userId)) ∧
    (getChatMember api (getChatMember api st chatId userId).1 chatId userId).2.2 = 0 ∧
    (getChatMember api (getChatMember api st chatId userId).1 chatId userId).2.1 =
      (getChatMember api st chatId userId).2.1 ∧
    (getChatMember api (getChatMember api st chatId userId).1 chatId userId).1 =
      (getChatMember api st chatId userId).1 := by
  have hwr : (st.write ["chat_members", toString chatId, toString userId]
        (.member (api chatId userId)))
        ["chat_members", toString chatId, toString userId] =
      some (.member (api chatId userId)) := by
    simp [Store.write]
  refine ⟨?_, ?_, ?_, ?_, ?_, ?_⟩ <;>
    simp [getChatMember, h, hwr, Store.write]

/-- Witness for C5: from the empty store, with a remote API returning a
fixed administrator record for `(1, 2)`. -/
theorem getChatMember_read_through_witness :
    (getChatMember (fun _ _ => ⟨.administrator, false, ⟨2⟩⟩) Store.empty 1 2).2.2 = 1 ∧
    (getChatMember (fun _ _ => ⟨.administrator, false, ⟨2⟩⟩)
        (getChatMember (fun _ _ => ⟨.administrator, false, ⟨2⟩⟩) Store.empty 1 2).1 1 2).2.2 = 0 := by
  have h := getChatMember_read_through (fun _ _ => ⟨.administrator, false, ⟨2⟩⟩)
    Store.empty 1 2 rfl
  exact ⟨h.1, h.2.2.2.1⟩

/-! ### The segmented-key `Trie` (`src/storage.ts`, lines 55–151)

A `TrieNode` mirrors the source interface: `children` is either absent
(`undefined`) or a JS `Map` from segment to child node, modelled as an
insertion-ordered association list; `value` is an optional payload. -/

/-- `TrieNode<T>` of `src/storage.ts`. -/
inductive TrieNode (T : Type) : Type
  | mk (children : Option (List (String × TrieNode T))) (value : Option T)

/-- The `children` field. -/
def TrieNode.children {T : Type} : TrieNode T → Option (List (String × TrieNode T))
  | ⟨c, _⟩ => c

/-- The `value` field. -/
def TrieNode.value {T : Type} : TrieNode T → Option T
  | ⟨_, v⟩ => v

@[simp] theorem TrieNode.children_mk {T : Type} (c : Option (List (String × TrieNode T)))
    (v : Option T) : (TrieNode.mk c v).children = c := rfl

@[simp] theorem TrieNode.value_mk {T : Type} (c : Option (List (String × TrieNode T)))
    (v : Option T) : (TrieNode.mk c v).value = v := rfl

/-- A freshly created node `{ children: undefined, value: undefined }`. -/
def TrieNode.empty {T : Type} : TrieNode T := ⟨none, none⟩

/-- JS `Map.prototype.get` on an insertion-ordered association list. -/
def mapGet {α : Type} : List (String × α) → String → Option α
  | [], _ => none
  | (k, v) :: rest, s => if k = s then some v else mapGet rest s

/-- JS `Map.prototype.set`: update in place, or append a new key. -/
def mapSet {α : Type} : List (String × α) → String → α → List (String × α)
  | [], s, v => [(s, v)]
  | (k, v') :: rest, s, v => if k = s then (k, v) :: rest else (k, v') :: mapSet rest s v

/-- JS `Map.prototype.delete`: remove the entry for a key, if present. -/
def mapDelete {α : Type} : List (String × α) → String → List (String × α)
  | [], _ => []
  | (k, v) :: rest, s => if k = s then rest else (k, v) :: mapDelete rest s

/-- `Trie.at` (`src/storage.ts`, lines 62–71): walk the key segment by
segment, failing as soon as a child is missing. -/
def Trie.atPath {T : Type} : TrieNode T → List String → Option (TrieNode T)
  | node, [] => some node
  | node, seg :: rest =>
    match node.children with
    | none => none
    | some cs =>
      match mapGet cs seg with
      | none => none
      | some n => Trie.atPath n rest

/-- `Trie.get` (`src/storage.ts`, lines 72–74): `this.at(key)?.value`. -/
def Trie.get {T : Type} (root : TrieNode T) (key : List String) : Option T :=
  (Trie.atPath root key).bind TrieNode.value

/-- `Trie.set` (`src/storage.ts`, lines 75–93): walk-and-create-as-needed,
then assign the value at the terminal node. -/
def Trie.set {T : Type} : TrieNode T → List String → T → TrieNode T
  | node, [], v => ⟨node.children, some v⟩
  | node, seg :: rest, v =>
    let cs := node.children.getD []
    let child := (mapGet cs seg).getD TrieNode.empty
    ⟨some (mapSet cs seg (Trie.set child rest v)), node.value⟩

/-- The walk of `Trie.delete` (`src/storage.ts`, lines 96–101): record the
ancestors (deepest first, each paired with the segment leading to its
child) and the terminal node, or fail if a segment is missing. -/
def Trie.walkRev {T : Type} : TrieNode T → List String → List (TrieNode T × String) →
    Option (TrieNode T × List (TrieNode T × String))
  | node, [], acc => some (node, acc)
  | node, seg :: rest, acc =>
    match node.children with
    | none => none
    | some cs =>
      match mapGet cs seg with
      | none => none
      | some n => Trie.walkRev n rest ((node, seg) :: acc)

/-- Reattach a rebuilt node through its recorded ancestors: in the source
this is implicit in heap mutation (each ancestor's `children` map already
points at the mutated child). -/
def Trie.attachAll {T : Type} : List (TrieNode T × String) → TrieNode T → TrieNode T
  | [], child => child
  | (parent, seg) :: rest, child =>
    Trie.attachAll rest ⟨some (mapSet (parent.children.getD []) seg child), parent.value⟩

/-- The backward prune loop of `Trie.delete` (`src/storage.ts`,
lines 106–112), translated over the recorded ancestors. `i` is the loop
index; `child` is the final version of `path[i]`. The loop head tests
`i > 0 && path[i].value === undefined`; the body removes `key[i]` from
the parent's children map (`key[i]` is translated by `key[i]?`, since at
`i = key.length` the JS index is out of range and `Map.delete(undefined)`
removes nothing), then either breaks when siblings remain or clears the
parent's children map and continues upward. -/
def Trie.pruneLoop {T : Type} (key : List String) :
    List (TrieNode T × String) → Nat → TrieNode T → TrieNode T
  | [], _, child => child
  | (parent, seg) :: rest, i, child =>
    if child.value.isSome then
      Trie.attachAll ((parent, seg) :: rest) child
    else
      let siblings := mapSet (parent.children.getD []) seg child
      let siblings' :=
        match key[i]? with
        | none => siblings
        | some s => mapDelete siblings s
      if siblings'.length > 0 then
        Trie.attachAll rest ⟨some siblings', parent.value⟩
      else
        Trie.pruneLoop key rest (i - 1) ⟨none, parent.value⟩

/-- `Trie.delete` (`src/storage.ts`, lines 94–117): walk with a recorded
path; on success clear the terminal value, return early when the terminal
still has a children map, and otherwise run the prune loop from
`last = path.length - 1 = key.length`. -/
def Trie.delete {T : Type} (root : TrieNode T) (key : List String) : TrieNode T :=
  match Trie.walkRev root key [] with
  | none => root
  | some (lastNode, ancs) =>
    let lastNode' : TrieNode T := ⟨lastNode.children, none⟩
    match lastNode.children with
    | some _ => Trie.attachAll ancs lastNode'
    | none => Trie.pruneLoop key ancs key.length lastNode'

theorem childrenListWeight_le {T : Type} (cs : List (String × TrieNode T)) :
    (cs.map fun p => sizeOf p.2).sum ≤ sizeOf cs := by
  induction cs with
  | nil => simp
  | cons p rest ih =>
    cases p with
    | mk s n => simp only [List.map_cons, List.sum_cons]; simp; omega

theorem childrenWeight_lt {T : Type} (node : TrieNode T) :
    ((node.children.getD []).map fun p => sizeOf p.2).sum < sizeOf node := by
  cases node with
  | mk c v =>
    cases c with
    | none => simp
    | some cs =>
      have h := childrenListWeight_le cs
      simp only [TrieNode.children_mk, Option.getD_some]
      simp
      omega

/-- The stack-based depth-first traversal of `Trie.entries`
(`src/storage.ts`, lines 118–147): process the top worklist item, yield
its value if set, and push its children (with extended keys) in front. -/
def Trie.traverse {T : Type} : List (List String × TrieNode T) → List (List String × T)
  | [] => []
  | (key, node) :: stack =>
    (match node.value with
      | some v => [(key, v)]
      | none => []) ++
    Trie.traverse (((node.children.getD []).map fun p => (key ++ [p.1], p.2)) ++ stack)
termination_by stack => (stack.map fun p => sizeOf p.2).sum
decreasing_by
  simp only [List.map_append, List.sum_append, List.map_map, List.map_cons, List.sum_cons,
    Function.comp_def]
  exact Nat.add_lt_add_right (childrenWeight_lt _) _

/-- `Trie.entries(prefix)` (`src/storage.ts`, lines 118–147): seed the
cursor stack with the node at the prefix, if any. -/
def Trie.entries {T : Type} (root : TrieNode T) (pre : List String) :
    List (List String × T) :=
  match Trie.atPath root pre with
  | none => []
  | some n => Trie.traverse [(pre, n)]

/-- `Trie.keys(prefix)` (`src/storage.ts`, lines 148–150). -/
def Trie.keysList {T : Type} (root : TrieNode T) (pre : List String) : List (List String) :=
  (Trie.entries root pre).map Prod.fst

/-- `nodupKeys cs`: the keys of an association list are pairwise distinct,
as they always are for a JS `Map`. -/
def nodupKeys {T : Type} : List (String × TrieNode T) → Bool
  | [] => true
  | (s, _) :: rest => !(listIncludes (rest.map Prod.fst) s) && nodupKeys rest

/-- Well-formedness of a trie node: every children map reachable from it
has pairwise-distinct keys, which holds for every trie the source can
build since its maps are JS `Map` objects. -/
inductive WfT {T : Type} : TrieNode T → Prop
  | mk (children : Option (List (String × TrieNode T))) (value : Option T)
      (hnodup : nodupKeys (children.getD []) = true)
      (hrec : ∀ p ∈ children.getD [], WfT p.2) :
      WfT (TrieNode.mk children value)

/-! ### `MemorySessionStorage` (`src/storage.ts`, lines 170–256) -/

/-- `Key = string | CascadingKey`. -/
inductive Key : Type
  | str (s : String)
  | seg (l : List String)
  deriving DecidableEq, Repr

/-- `cascade` (`src/storage.ts`, lines 51–53). -/
def cascade : Key → List String
  | .str s => [s]
  | .seg l => l

/-- The payload stored in the trie: `{ session: S; expires?: number }`. -/
structure StoredValue (S : Type) : Type where
  session : S
  expires : Option Nat

/-- `addExpiryDate` (`src/storage.ts`, lines 249–256). A finite TTL is
`some ttl`; an absent (or infinite) TTL is `none`. -/
def addExpiryDate {S : Type} (value : S) (ttl : Option Nat) (now : Nat) : StoredValue S :=
  match ttl with
  | some t => ⟨value, some (now + t)⟩
  | none => ⟨value, none⟩

/-- A `MemorySessionStorage<S>` instance: the per-instance TTL and the
backing trie. `Date.now()` is passed explicitly as `now` below. -/
structure MemoryStore (S : Type) : Type where
  timeToLive : Option Nat
  storage : TrieNode (StoredValue S)

/-- A freshly constructed storage with the given TTL. -/
def MemoryStore.mkEmpty (S : Type) (ttl : Option Nat) : MemoryStore S :=
  ⟨ttl, TrieNode.empty⟩

/-- `MemorySessionStorage.read` (`src/storage.ts`, lines 184–193):
returns the possibly mutated store and the result. An entry whose expiry
has passed is treated as absent and eagerly deleted. -/
def MemoryStore.read {S : Type} (st : MemoryStore S) (now : Nat) (key : Key) :
    MemoryStore S × Option S :=
  match Trie.get st.storage (cascade key) with
  | none => (st, none)
  | some value =>
    match value.expires with
    | some e =>
      if e < now then ({ st with storage := Trie.delete st.storage (cascade key) }, none)
      else (st, some value.session)
    | none => (st, some value.session)

/-- `MemorySessionStorage.write` (`src/storage.ts`, lines 224–226). -/
def MemoryStore.write {S : Type} (st : MemoryStore S) (now : Nat) (key : Key) (value : S) :
    MemoryStore S :=
  { st with storage := Trie.set st.storage (cascade key) (addExpiryDate value st.timeToLive now) }

/-- `MemorySessionStorage.has` (`src/storage.ts`, lines 220–222):
`this.read(key) !== undefined`, including read's deletion side effect. -/
def MemoryStore.has {S : Type} (st : MemoryStore S) (now : Nat) (key : Key) :
    MemoryStore S × Bool :=
  let r := st.read now key
  (r.1, r.2.isSome)

/-- `MemorySessionStorage.keys` (`src/storage.ts`, lines 232–234):
enumerates the trie's keys directly, without reads. -/
def MemoryStore.keysL {S : Type} (st : MemoryStore S) (pre : Option Key) : List (List String) :=
  Trie.keysList st.storage (cascade ((pre).getD (.seg [])))

/-- `MemorySessionStorage.entries` (`src/storage.ts`, lines 235–243):
re-reads every enumerated key (running each read's expiry side effect)
and yields the pairs whose read is present. Deletion during iteration
only clears node values, so the key enumeration is unaffected and can be
taken up front. -/
def MemoryStore.entries {S : Type} (st : MemoryStore S) (now : Nat) (pre : Option Key) :
    MemoryStore S × List (List String × S) :=
  (st.keysL pre).foldl
    (fun acc k =>
      let r := acc.1.read now (.seg k)
      match r.2 with
      | some v => (r.1, acc.2 ++ [(k, v)])
      | none => (r.1, acc.2))
    (st, [])

/-- `MemorySessionStorage.values` (`src/storage.ts`, lines 244–246). -/
def MemoryStore.values {S : Type} (st : MemoryStore S) (now : Nat) (pre : Option Key) :
    MemoryStore S × List S :=
  let r := st.entries now pre
  (r.1, r.2.map Prod.snd)

/-! ### What `Trie.delete` actually does

The prune loop of the source deletes `key[i]` from `path[i - 1]`'s
children map, with `i` starting at `path.length - 1 = key.length`; the
index is out of range, so nothing is removed, the `siblings.size > 0`
test succeeds and the loop breaks on its first iteration. The following
lemmas prove that `Trie.delete` therefore only clears the terminal value
(`Trie.clearVal`) and never prunes. -/

/-- Clearing the terminal value of a key's node, with no pruning. -/
def Trie.clearVal {T : Type} : TrieNode T → List String → TrieNode T
  | node, [] => ⟨node.children, none⟩
  | node, seg :: rest =>
    match node.children with
    | none => node
    | some cs =>
      match mapGet cs seg with
      | none => node
      | some child => ⟨some (mapSet cs seg (Trie.clearVal child rest)), node.value⟩

theorem mapSet_ne_nil {α : Type} (cs : List (String × α)) (s : String) (v : α) :
    mapSet cs s v ≠ [] := by
  cases cs with
  | nil => simp [mapSet]
  | cons p rest =>
    cases p with
    | mk k v' =>
      simp only [mapSet]
      split <;> simp

theorem mapSet_get_same {α : Type} (cs : List (String × α)) (s : String) (v : α)
    (h : mapGet cs s = some v) : mapSet cs s v = cs := by
  induction cs with
  | nil => simp [mapGet] at h
  | cons p rest ih =>
    obtain ⟨k, v'⟩ := p
    by_cases hk : k = s
    · subst hk
      simp only [mapGet, if_pos rfl] at h
      injection h with h
      subst h
      simp [mapSet]
    · simp only [mapGet, if_neg hk] at h
      simp [mapSet, hk, ih h]

theorem TrieNode.eta {T : Type} (node : TrieNode T) :
    TrieNode.mk node.children node.value = node := by
  cases node
  rfl

theorem pruneLoop_first_break {T : Type} (key : List String) (parent : TrieNode T)
    (seg : String) (rest : List (TrieNode T × String)) (child : TrieNode T)
    (hv : child.value = none) (hi : key[key.length]? = none) :
    Trie.pruneLoop key ((parent, seg) :: rest) key.length child =
      Trie.attachAll ((parent, seg) :: rest) child := by
  rw [Trie.pruneLoop]
  rw [hv]
  simp only [Option.isSome_none, Bool.false_eq_true, if_false, hi]
  rw [if_pos]
  · rfl
  · have h := mapSet_ne_nil (parent.children.getD []) seg child
    cases hms : mapSet (parent.children.getD []) seg child with
    | nil => exact absurd hms h
    | cons a l => simp

theorem walkRev_attach_clearVal {T : Type} (key : List String) (node : TrieNode T)
    (acc : List (TrieNode T × String)) :
    (match Trie.walkRev node key acc with
      | none => Trie.attachAll acc node
      | some (lastNode, ancs) => Trie.attachAll ancs ⟨lastNode.children, none⟩) =
      Trie.attachAll acc (Trie.clearVal node key) := by
  induction key generalizing node acc with
  | nil => rfl
  | cons seg rest ih =>
    obtain ⟨nc, nv⟩ := node
    rw [Trie.walkRev, Trie.clearVal]
    cases nc with
    | none => rfl
    | some cs =>
      simp only [TrieNode.children_mk]
      cases hg : mapGet cs seg with
      | none => simp [hg]
      | some child =>
        simp only [hg]
        have hih := ih child ((⟨some cs, nv⟩, seg) :: acc)
        cases hwr : Trie.walkRev child rest ((⟨some cs, nv⟩, seg) :: acc) with
        | none =>
          rw [hwr] at hih
          simp only [Trie.attachAll, TrieNode.children_mk, TrieNode.value_mk,
            Option.getD_some] at hih
          rw [mapSet_get_same cs seg child hg] at hih
          simpa using hih
        | some r =>
          obtain ⟨lastNode, ancs⟩ := r
          rw [hwr] at hih
          simp only at hih
          simp only [hwr]
          rw [hih]
          simp [Trie.attachAll]

/-- The prune loop of `Trie.delete` always breaks on its first iteration:
deletion reduces to clearing the terminal value. -/
theorem Trie.delete_eq_clearVal {T : Type} (root : TrieNode T) (key : List String) :
    Trie.delete root key = Trie.clearVal root key := by
  have hmain := walkRev_attach_clearVal key root []
  unfold Trie.delete
  cases hw : Trie.walkRev root key [] with
  | none =>
    rw [hw] at hmain
    simpa [Trie.attachAll] using hmain
  | some r =>
    obtain ⟨lastNode, ancs⟩ := r
    rw [hw] at hmain
    simp only [Trie.attachAll] at hmain
    simp only
    cases hlc : lastNode.children with
    | some cs =>
      rw [hlc] at hmain
      exact hmain
    | none =>
      rw [hlc] at hmain
      cases ancs with
      | nil =>
        rw [Trie.pruneLoop]
        simpa [Trie.attachAll] using hmain
      | cons a rest =>
        obtain ⟨parent, seg⟩ := a
        rw [pruneLoop_first_break key parent seg rest ⟨none, none⟩ rfl
          (List.getElem?_eq_none (Nat.le_refl _))]
        exact hmain

/-! ### Get-after-set and get-after-delete -/

theorem mapGet_mapSet_self {α : Type} (cs : List (String × α)) (s : String) (v : α) :
    mapGet (mapSet cs s v) s = some v := by
  induction cs with
  | nil => simp [mapSet, mapGet]
  | cons p rest ih =>
    obtain ⟨k, v'⟩ := p
    by_cases hk : k = s
    · subst hk
      simp [mapSet, mapGet]
    · simp [mapSet, mapGet, hk, ih]

theorem Trie.get_set_self {T : Type} (root : TrieNode T) (key : List String) (v : T) :
    Trie.get (Trie.set root key v) key = some v := by
  induction key generalizing root with
  | nil =>
    obtain ⟨c, w⟩ := root
    simp [Trie.set, Trie.get, Trie.atPath, TrieNode.value]
  | cons seg rest ih =>
    obtain ⟨c, w⟩ := root
    simp only [Trie.set, Trie.get, Trie.atPath, TrieNode.children_mk]
    rw [mapGet_mapSet_self]
    exact ih _

theorem Trie.get_clearVal_self {T : Type} (root : TrieNode T) (key : List String) :
    Trie.get (Trie.clearVal root key) key = none := by
  induction key generalizing root with
  | nil =>
    obtain ⟨c, w⟩ := root
    simp [Trie.clearVal, Trie.get, Trie.atPath, TrieNode.value]
  | cons seg rest ih =>
    obtain ⟨c, w⟩ := root
    cases c with
    | none => simp [Trie.clearVal, Trie.get, Trie.atPath]
    | some cs =>
      cases hg : mapGet cs seg with
      | none => simp [Trie.clearVal, hg, Trie.get, Trie.atPath]
      | some child =>
        simp only [Trie.clearVal, TrieNode.children_mk, hg]
        simp only [Trie.get, Trie.atPath, TrieNode.children_mk]
        rw [mapGet_mapSet_self]
        exact ih child

/-! ### Claims C4, C7, C10 -/

/-- The trie holding the single entry `["chat_members","1","10"] ↦ 0`. -/
def trieC4 : TrieNode Nat := Trie.set TrieNode.empty ["chat_members", "1", "10"] 0

/-- C4 evaluated at its failing input: deleting the only entry of a
multi-segment key clears the terminal value but leaves the whole chain of
now-empty nodes in place — the prune loop removes nothing (it deletes
`key[i]` with `i = key.length`, an out-of-range index, and then breaks
because siblings remain), contradicting the claimed backward pruning. -/
theorem delete_leaves_dangling_nodes :
    Trie.delete trieC4 ["chat_members", "1", "10"] =
      TrieNode.mk
        (some [("chat_members",
          TrieNode.mk (some [("1",
            TrieNode.mk (some [("10", TrieNode.mk none none)]) none)]) none)])
        none ∧
    (Trie.delete trieC4 ["chat_members", "1", "10"]).children.isSome = true ∧
    Trie.get (Trie.delete trieC4 ["chat_members", "1", "10"]) ["chat_members", "1", "10"] =
      none :=
  ⟨rfl, rfl, rfl⟩

/-- C7: for a store with a finite TTL, a read before the expiry instant
returns the stored value; a read after the expiry instant returns absent
and eagerly deletes the entry from the trie, and a subsequent `has`
returns false. -/
theorem ttl_expiry_read (S : Type) (st : MemoryStore S) (ttl t0 n1 n2 : Nat) (k : Key) (v : S)
    (httl : st.timeToLive = some ttl) (h1 : n1 < t0 + ttl) (h2 : t0 + ttl < n2) :
    ((st.write t0 k v).read n1 k).2 = some v ∧
    ((st.write t0 k v).read n2 k).2 = none ∧
    Trie.get ((st.write t0 k v).read n2 k).1.storage (cascade k) = none ∧
    (((st.write t0 k v).read n2 k).1.has n2 k).2 = false := by
  have hw : Trie.get (st.write t0 k v).storage (cascade k) = some ⟨v, some (t0 + ttl)⟩ := by
    simp [MemoryStore.write, addExpiryDate, httl, Trie.get_set_self]
  have hread2 : (st.write t0 k v).read n2 k =
      ({ st.write t0 k v with
          storage := Trie.delete (st.write t0 k v).storage (cascade k) }, none) := by
    simp only [MemoryStore.read, hw]
    rw [if_pos (by omega)]
  have hget2 : Trie.get ((st.write t0 k v).read n2 k).1.storage (cascade k) = none := by
    rw [hread2]
    simp only [Trie.delete_eq_clearVal]
    exact Trie.get_clearVal_self _ _
  refine ⟨?_, ?_, hget2, ?_⟩
  · simp only [MemoryStore.read, hw]
    rw [if_neg (by omega)]
  · rw [hread2]
  · generalize hst2 : ((st.write t0 k v).read n2 k).1 = st2 at hget2 ⊢
    simp only [MemoryStore.has, MemoryStore.read, hget2, Option.isSome_none]

/-- Witness for C7: TTL 50, written at 0, read at 10 and at 60. -/
theorem ttl_expiry_read_witness :
    (((MemoryStore.mkEmpty Nat (some 50)).write 0 (.seg ["a"]) 7).read 10 (.seg ["a"])).2 =
      some 7 ∧
    (((MemoryStore.mkEmpty Nat (some 50)).write 0 (.seg ["a"]) 7).read 60 (.seg ["a"])).2 =
      none :=
  have h := ttl_expiry_read Nat (MemoryStore.mkEmpty Nat (some 50)) 50 0 10 60
    (.seg ["a"]) 7 rfl (by omega) (by omega)
  ⟨h.1, h.2.1⟩

/-- A store whose single entry `["a"] ↦ 7` expired at time 50. -/
def stExpired : MemoryStore Nat :=
  ⟨some 50, Trie.set TrieNode.empty ["a"] ⟨7, some 50⟩⟩

/-- C10: `has` returns exactly `read ≠ absent`, sharing read's state
change, so it is not read-only: on an expired entry, `has` — and the
listing operations, which re-read each enumerated key — delete the entry
from the underlying trie as a side effect. -/
theorem has_is_effectful_read (S : Type) (st : MemoryStore S) (now : Nat) (k : Key) :
    st.has now k = ((st.read now k).1, (st.read now k).2.isSome) ∧
    (∀ (w : StoredValue S) (e : Nat),
      Trie.get st.storage (cascade k) = some w → w.expires = some e → e < now →
      Trie.get (st.has now k).1.storage (cascade k) = none) ∧
    Trie.get (stExpired.entries 60 none).1.storage ["a"] = none := by
  refine ⟨rfl, ?_, ?_⟩
  · intro w e hget hexp hlt
    simp only [MemoryStore.has, MemoryStore.read, hget, hexp, if_pos hlt]
    simp only [Trie.delete_eq_clearVal]
    exact Trie.get_clearVal_self _ _
  · simp [MemoryStore.entries, MemoryStore.keysL, Trie.keysList, Trie.entries, Trie.atPath,
      Trie.traverse, MemoryStore.read, Trie.get, stExpired, Trie.set, TrieNode.empty, cascade,
      mapSet, mapGet, TrieNode.value, TrieNode.children, Trie.delete_eq_clearVal, Trie.clearVal]

/-- Witness for C10 on the concrete expired store. -/
theorem has_is_effectful_read_witness :
    Trie.get ((stExpired.has 60 (.seg ["a"])).1).storage (cascade (.seg ["a"])) = none :=
  (has_is_effectful_read Nat stExpired 60 (.seg ["a"])).2.1 ⟨7, some 50⟩ 50 rfl rfl (by omega)

/-! ### Traversal correctness (towards C9) -/

instance {T : Type} : Inhabited (TrieNode T) := ⟨TrieNode.empty⟩

theorem traverse_append {T : Type} (a b : List (List String × TrieNode T)) :
    Trie.traverse (a ++ b) = Trie.traverse a ++ Trie.traverse b := by
  induction a using Trie.traverse.induct generalizing b with
  | case1 => simp [Trie.traverse]
  | case2 key node stack ih =>
    simp only [List.cons_append, Trie.traverse]
    rw [← List.append_assoc, ih, List.append_assoc]

theorem mem_traverse_iff {T : Type} (l : List (List String × TrieNode T))
    (x : List String × T) :
    x ∈ Trie.traverse l ↔ ∃ it ∈ l, x ∈ Trie.traverse [it] := by
  induction l with
  | nil => simp [Trie.traverse]
  | cons it rest ih =>
    have hsplit : Trie.traverse (it :: rest) = Trie.traverse [it] ++ Trie.traverse rest := by
      simpa using traverse_append [it] rest
    simp [hsplit, ih]

theorem mapGet_mem {α : Type} (cs : List (String × α)) (s : String) (v : α)
    (h : mapGet cs s = some v) : (s, v) ∈ cs := by
  induction cs with
  | nil => simp [mapGet] at h
  | cons p rest ih =>
    obtain ⟨k, v'⟩ := p
    by_cases hk : k = s
    · subst hk
      simp only [mapGet, if_pos rfl] at h
      injection h with h
      subst h
      exact List.mem_cons_self _ _
    · simp only [mapGet, if_neg hk] at h
      exact List.mem_cons_of_mem _ (ih h)

theorem mapGet_eq_of_mem_nodup {T : Type} (cs : List (String × TrieNode T)) (s : String)
    (c : TrieNode T) (hnd : nodupKeys cs = true) (hm : (s, c) ∈ cs) :
    mapGet cs s = some c := by
  induction cs with
  | nil => simp at hm
  | cons p rest ih =>
    obtain ⟨k, c'⟩ := p
    simp only [nodupKeys, Bool.and_eq_true, Bool.not_eq_true'] at hnd
    rcases List.mem_cons.mp hm with heq | htail
    · injection heq with h1 h2
      subst h1
      subst h2
      simp [mapGet]
    · by_cases hk : k = s
      · subst hk
        have : k ∈ rest.map Prod.fst := List.mem_map.mpr ⟨(k, c), htail, rfl⟩
        rw [← listIncludes_iff_mem] at this
        rw [this] at hnd
        exact absurd hnd.1 (by simp)
      · simp only [mapGet, if_neg hk]
        exact ih hnd.2 htail

theorem Trie.atPath_append {T : Type} (root : TrieNode T) (a b : List String) :
    Trie.atPath root (a ++ b) = (Trie.atPath root a).bind fun n => Trie.atPath n b := by
  induction a generalizing root with
  | nil => simp [Trie.atPath]
  | cons seg rest ih =>
    obtain ⟨c, v⟩ := root
    cases c with
    | none => simp [Trie.atPath]
    | some cs =>
      cases hg : mapGet cs seg with
      | none => simp [Trie.atPath, hg]
      | some n => simp [Trie.atPath, hg, ih]

theorem WfT.of_child {T : Type} {node : TrieNode T} (h : WfT node)
    {cs : List (String × TrieNode T)} (hc : node.children = some cs)
    {s : String} {c : TrieNode T} (hm : mapGet cs s = some c) : WfT c := by
  cases h with
  | mk children value hnd hrec =>
    rw [TrieNode.children_mk] at hc
    subst hc
    exact hrec (s, c) (by simpa using mapGet_mem cs s c hm)

theorem WfT.of_atPath {T : Type} (p : List String) {root : TrieNode T} (h : WfT root)
    {n : TrieNode T} (hp : Trie.atPath root p = some n) : WfT n := by
  induction p generalizing root with
  | nil =>
    simp only [Trie.atPath, Option.some_inj] at hp
    exact hp ▸ h
  | cons seg rest ih =>
    obtain ⟨c, v⟩ := root
    cases c with
    | none => simp [Trie.atPath] at hp
    | some cs =>
      simp only [Trie.atPath, TrieNode.children_mk] at hp
      cases hg : mapGet cs seg with
      | none => rw [hg] at hp; simp at hp
      | some child =>
        rw [hg] at hp
        exact ih (WfT.of_child h rfl hg) hp

@[simp] theorem Trie.get_nil {T : Type} (node : TrieNode T) :
    Trie.get node [] = node.value := by
  simp [Trie.get, Trie.atPath]

/-- Membership in the depth-first traversal rooted at `pre` is exactly the
set of stored entries below the node, with keys extending `pre`. -/
theorem mem_traverse_single {T : Type} {node : TrieNode T} (hwf : WfT node) :
    ∀ (pre k : List String) (v : T),
      (k, v) ∈ Trie.traverse [(pre, node)] ↔
        ∃ rest, k = pre ++ rest ∧ Trie.get node rest = some v := by
  induction hwf with
  | mk children value hnd hrec ih =>
    intro pre k v
    have hunfold : Trie.traverse [(pre, TrieNode.mk children value)] =
        (match value with
          | some v0 => [(pre, v0)]
          | none => []) ++
        Trie.traverse ((children.getD []).map fun p => (pre ++ [p.1], p.2)) := by
      rw [Trie.traverse]
      simp [TrieNode.value, TrieNode.children]
    rw [hunfold]
    rw [List.mem_append, mem_traverse_iff]
    constructor
    · rintro (hvp | ⟨it, hit, hx⟩)
      · refine ⟨[], ?_, ?_⟩ <;>
        · cases value with
          | none => simp at hvp
          | some v0 =>
            simp only [List.mem_singleton, Prod.mk.injEq] at hvp
            simp [hvp.1, hvp.2]
      · rcases List.mem_map.mp hit with ⟨p, hp, rfl⟩
        obtain ⟨s, c⟩ := p
        rcases (ih (s, c) hp (pre ++ [s]) k v).mp hx with ⟨r, hk, hget⟩
        refine ⟨s :: r, by simpa using hk, ?_⟩
        cases children with
        | none => simp at hp
        | some cs =>
          have hmg : mapGet cs s = some c :=
            mapGet_eq_of_mem_nodup cs s c (by simpa using hnd) (by simpa using hp)
          simpa [Trie.get, Trie.atPath, hmg] using hget
    · rintro ⟨rest, rfl, hget⟩
      cases rest with
      | nil =>
        left
        rw [Trie.get_nil] at hget
        simp only [TrieNode.value_mk] at hget
        simp [hget]
      | cons s r =>
        right
        cases children with
        | none => simp [Trie.get, Trie.atPath] at hget
        | some cs =>
          cases hg : mapGet cs s with
          | none => simp [Trie.get, Trie.atPath, hg] at hget
          | some c =>
            have hget' : Trie.get c r = some v := by
              simpa [Trie.get, Trie.atPath, hg] using hget
            have hp : (s, c) ∈ cs := mapGet_mem cs s c hg
            refine ⟨(pre ++ [s], c), List.mem_map.mpr ⟨(s, c), by simpa using hp, rfl⟩, ?_⟩
            exact (ih (s, c) (by simpa using hp) (pre ++ [s]) (pre ++ s :: r) v).mpr
              ⟨r, by simp, hget'⟩

theorem mem_entries {T : Type} {root : TrieNode T} (hwf : WfT root)
    (pre k : List String) (v : T) :
    (k, v) ∈ Trie.entries root pre ↔
      (∃ rest, k = pre ++ rest) ∧ Trie.get root k = some v := by
  unfold Trie.entries
  cases hat : Trie.atPath root pre with
  | none =>
    simp only [List.not_mem_nil, false_iff, not_and]
    rintro ⟨rest, rfl⟩
    rw [Trie.get, Trie.atPath_append, hat]
    simp
  | some n =>
    have hcomp : ∀ rest, Trie.get root (pre ++ rest) = Trie.get n rest := by
      intro rest
      rw [Trie.get, Trie.atPath_append, hat]
      rfl
    rw [mem_traverse_single (WfT.of_atPath pre hwf hat)]
    constructor
    · rintro ⟨rest, rfl, hg⟩
      exact ⟨⟨rest, rfl⟩, by rw [hcomp]; exact hg⟩
    · rintro ⟨⟨rest, rfl⟩, hget⟩
      exact ⟨rest, rfl, by rw [← hcomp]; exact hget⟩

/-! ### Claim C9 -/

/-- The store holding `["chat_members","1","10"] ↦ 10`,
`["chat_members","1","20"] ↦ 20` and `["chat_members","2","30"] ↦ 30`,
written without a TTL. -/
def stC9 : MemoryStore Nat :=
  (((MemoryStore.mkEmpty Nat none).write 0 (.seg ["chat_members", "1", "10"]) 10).write 0
      (.seg ["chat_members", "1", "20"]) 20).write 0
    (.seg ["chat_members", "2", "30"]) 30

/-- A store holding the single entry `["ab"] ↦ 1`. -/
def stAB : MemoryStore Nat :=
  (MemoryStore.mkEmpty Nat none).write 0 (.seg ["ab"]) 1

/-- C9: the listing operations enumerate exactly the stored entries whose
key extends the prefix segment-wise: membership in `Trie.entries root pre`
is equivalent to being a stored entry whose key has `pre` as its leading
segments; concretely, `values(["chat_members","1"])` yields exactly the
two chat-1 values and excludes the chat-2 one, and matching is not
string-substring matching (`["a"]` does not list the entry under
`["ab"]`). -/
theorem listing_is_segmentwise_prefix_scoping :
    (∀ (T : Type) (root : TrieNode T), WfT root → ∀ (pre k : List String) (v : T),
      ((k, v) ∈ Trie.entries root pre ↔
        (∃ rest, k = pre ++ rest) ∧ Trie.get root k = some v)) ∧
    (stC9.values 0 (some (.seg ["chat_members", "1"]))).2 = [10, 20] ∧
    (stC9.values 0 (some (.seg ["chat_members", "2"]))).2 = [30] ∧
    (stAB.values 0 (some (.seg ["a"]))).2 = [] := by
  refine ⟨fun T root hwf pre k v => mem_entries hwf pre k v, ?_, ?_, ?_⟩ <;>
    simp [MemoryStore.values, MemoryStore.entries, MemoryStore.keysL, Trie.keysList,
      Trie.entries, Trie.atPath, Trie.traverse, MemoryStore.read, Trie.get, stC9, stAB,
      MemoryStore.mkEmpty, MemoryStore.write, Trie.set, TrieNode.empty, cascade,
      addExpiryDate, mapSet, mapGet, TrieNode.value, TrieNode.children]

/-- A small well-formed trie for the C9 witness. -/
def trieW : TrieNode Nat := ⟨some [("a", ⟨none, some 5⟩)], none⟩

theorem trieW_wf : WfT trieW := by
  refine WfT.mk _ _ rfl ?_
  intro p hp
  simp only [Option.getD_some, List.mem_singleton] at hp
  subst hp
  exact WfT.mk none (some 5) rfl (by intro p hp; simp at hp)

/-- Witness for C9 at a concrete well-formed trie. -/
theorem listing_is_segmentwise_prefix_scoping_witness :
    (["a"], 5) ∈ Trie.entries trieW [] ↔
      (∃ rest, ["a"] = [] ++ rest) ∧ Trie.get trieW ["a"] = some 5 :=
  listing_is_segmentwise_prefix_scoping.1 Nat trieW trieW_wf [] ["a"] 5

end ChatMembers
